import Mathlib

/-!
Shallow embedding of the tar-pipe repository: the stream cipher codec of
`encryption.go`, the layer composition, key derivation and tree extraction
logic of `main.go`, and the platform FIFO adapter of `main_unix.go`.

Byte values are modelled as `Nat` (each produced byte is < 256), byte
sequences as `List Nat`, and tar entry names as lists of path components.
The external cryptographic primitives (AES-GCM via `cipher.AEAD`, the
SHA-512/256 hash) are parameters of the model, constrained only by the
properties the surrounding code relies on.
-/

namespace TarPipe

set_option maxRecDepth 16384

/-- Errors of the codec and extractor, mirroring the error returns of the Go
source; message strings are dropped, the identity of each failure is kept. -/
inductive Err where
  | eof
  | unexpectedEOF
  | authFailure
  | misWrite (got want : Nat)
  | linkMissing
deriving DecidableEq, Repr

/-- `binary.BigEndian.PutUint64` (`encryption.go` line 231): the eight
big-endian base-256 digits of `n`. -/
def toBE8 (n : Nat) : List Nat :=
  [n / 72057594037927936 % 256, n / 281474976710656 % 256,
   n / 1099511627776 % 256, n / 4294967296 % 256,
   n / 16777216 % 256, n / 65536 % 256, n / 256 % 256, n % 256]

/-- `binary.BigEndian.Uint64` on an 8-byte buffer (`encryption.go` line 96). -/
def fromBE8 (l : List Nat) : Nat :=
  l.foldl (fun acc b => acc * 256 + b) 0

/-- The AES-GCM nonce length in bytes, `gcm.NonceSize()`. -/
def nonceSize : Nat := 12

/-- `const EncryptionChunkSize = 1024` (`encryption.go` line 26). -/
def EncryptionChunkSize : Nat := 1024

/-- An AEAD cipher in the role of `cipher.AEAD` for AES-GCM: `seal` encrypts
and appends the 16-byte tag, `unseal` authenticates and inverts it.  AES-GCM
itself is external library code, so it is a parameter of the model. -/
structure AEAD where
  gcmSeal : List Nat → List Nat → List Nat
  gcmOpen : List Nat → List Nat → Option (List Nat)

/-- The two properties of AES-GCM that the codec relies on: `Seal` adds
exactly the 16-byte GCM tag, and `Open` inverts `Seal` under the same nonce. -/
structure AEADLawful (A : AEAD) : Prop where
  seal_length : ∀ nonce pt, (A.gcmSeal nonce pt).length = pt.length + 16
  unseal_seal : ∀ nonce pt, A.gcmOpen nonce (A.gcmSeal nonce pt) = some pt

/-- One sealed frame: the nonce handed to `aead.Seal` and the plaintext it
sealed. -/
structure Frame where
  nonceUsed : List Nat
  pt : List Nat
deriving DecidableEq, Repr

/-- State of a `StreamEncryptor` (`encryption.go` lines 122-129).  `buf` is
the filled prefix `se.plaintext[:se.idx]` of the fixed-capacity buffer;
`frames` records each `writeFrame` call in order; `transportClosed` tracks
whether the underlying writer was closed (the codec never closes it). -/
structure EncState where
  nonce : List Nat
  buf : List Nat
  frames : List Frame
  err : Option Err
  transportClosed : Bool
deriving DecidableEq, Repr

/-- `NewEncryptor` (`encryption.go` lines 131-163): one nonce is generated per
instance from `crypto/rand` (an external entropy source, modelled as the
parameter `nonce`) and written to the head of the stream; the plaintext
buffer starts empty. -/
def newEncryptor (nonce : List Nat) : EncState :=
  { nonce := nonce, buf := [], frames := [], err := none, transportClosed := false }

/-- `writeFrame` (`encryption.go` lines 223-242): seal `data` with the
instance nonce `se.nonce` and emit one frame. -/
def writeFrame (s : EncState) (data : List Nat) : EncState :=
  if s.err.isSome then s
  else { s with frames := s.frames ++ [⟨s.nonce, data⟩] }

/-- `StreamEncryptor.Flush` (`encryption.go` lines 178-187). -/
def Flush (s : EncState) : EncState :=
  if s.err.isSome then s
  else if 0 < s.buf.length then { writeFrame s s.buf with buf := [] }
  else s

/-- `StreamEncryptor.Write` (`encryption.go` lines 189-221): buffer the data
when it fits, otherwise flush the pending buffer first, then buffer the data
or seal it directly as its own frame.  Returns the new state and the reported
byte count. -/
def EWrite (s : EncState) (data : List Nat) : EncState × Nat :=
  if s.err.isSome then (s, 0)
  else if s.buf.length + data.length ≤ EncryptionChunkSize then
    ({ s with buf := s.buf ++ data }, data.length)
  else
    let s1 := Flush s
    if s1.err.isSome then (s1, 0)
    else if data.length ≤ EncryptionChunkSize then
      ({ s1 with buf := data }, data.length)
    else
      (writeFrame s1 data, data.length)

/-- `StreamEncryptor.Close` (`encryption.go` lines 165-176): flush the pending
buffer; the instance fields are cleared but the underlying transport is left
untouched. -/
def EClose (s : EncState) : EncState :=
  Flush s

/-- A sequence of `Write` calls. -/
def encryptAll (s : EncState) (writes : List (List Nat)) : EncState :=
  writes.foldl (fun s w => (EWrite s w).1) s

/-- `Write` each element of `writes` in order, then `Close`. -/
def encryptClose (nonce : List Nat) (writes : List (List Nat)) : EncState :=
  EClose (encryptAll (newEncryptor nonce) writes)

/-- Wire bytes of one frame (`writeFrame`, lines 228-241): the 8-byte
big-endian ciphertext length, then the ciphertext. -/
def frameBytes (A : AEAD) (f : Frame) : List Nat :=
  toBE8 (A.gcmSeal f.nonceUsed f.pt).length ++ A.gcmSeal f.nonceUsed f.pt

/-- Everything the encryptor wrote to the transport: the instance nonce
(written by `NewEncryptor`) followed by the frames in emission order. -/
def wireOf (A : AEAD) (s : EncState) : List Nat :=
  s.nonce ++ (s.frames.map (frameBytes A)).flatten

/-- State of a `StreamDecryptor` (`encryption.go` lines 28-35).  `idx` is the
read cursor into `plaintext`; `input` is the unread rest of the stream. -/
structure DecState where
  nonce : List Nat
  idx : Nat
  plaintext : List Nat
  input : List Nat
  err : Option Err
deriving DecidableEq, Repr

/-- `NewDecryptor` (`encryption.go` lines 37-62): read the 12-byte nonce from
the head of the stream; fails when the stream is shorter than the nonce. -/
def newDecryptor (wire : List Nat) : Option DecState :=
  if nonceSize ≤ wire.length then
    some { nonce := wire.take nonceSize, idx := 0, plaintext := [],
           input := wire.drop nonceSize, err := none }
  else none

/-- The loop of `StreamDecryptor.Read` (`encryption.go` lines 86-117).  `n` is
`len(buf)`, `bi` the bytes copied so far, `acc` those bytes.  `fuel` only
bounds the recursion: every iteration either consumes at least 8 input bytes
or copies at least one byte to the client, so the fuel chosen by `DecRead` is
never exhausted. -/
def ReadAux (A : AEAD) : Nat → Nat → Nat → List Nat → DecState → List Nat × DecState
  | 0, _, _, acc, s => (acc, s)
  | fuel + 1, n, bi, acc, s =>
    if bi < n then
      if s.plaintext.length ≤ s.idx then
        if s.input.length < 8 then
          (acc, { s with
                  input := [],
                  err := some (if s.input.isEmpty then Err.eof else Err.unexpectedEOF) })
        else
          let size := fromBE8 (s.input.take 8)
          let rest := s.input.drop 8
          if rest.length < size then
            (acc, { s with input := [], err := some Err.unexpectedEOF })
          else
            match A.gcmOpen s.nonce (rest.take size) with
            | none => (acc, { s with input := rest.drop size, err := some Err.authFailure })
            | some pt =>
              ReadAux A fuel n bi acc { s with input := rest.drop size, plaintext := pt, idx := 0 }
      else
        let nc := min (n - bi) (s.plaintext.length - s.idx)
        ReadAux A fuel n (bi + nc) (acc ++ (s.plaintext.drop s.idx).take nc)
          { s with idx := s.idx + nc }
    else (acc, s)

/-- `StreamDecryptor.Read` (`encryption.go` lines 78-120): a sticky error is
returned at once with no bytes; otherwise the loop runs until the client
buffer of length `n` is full or the stream errors.  Returns the bytes
delivered to the caller and the new state. -/
def DecRead (A : AEAD) (s : DecState) (n : Nat) : List Nat × DecState :=
  if s.err.isSome then ([], s)
  else ReadAux A (n + s.input.length + 1) n 0 [] s

/-- The chain of writers built in `send` (`main.go` lines 354-379): `socket`
is the dialed connection, `enc w` a `StreamEncryptor` writing to `w`, and
`comp w` a gzip writer writing to `w`. -/
inductive WChain where
  | socket
  | enc (inner : WChain)
  | comp (inner : WChain)
deriving DecidableEq, Repr

/-- `withEncryptingWriter` (`main.go` lines 112-127), abstracted over what the
callback does with the writer it is handed. -/
def withEncryptingWriterC {α : Type} (use : Bool) (w : WChain) (callback : WChain → α) : α :=
  if use then callback (WChain.enc w) else callback w

/-- `withCompressingWriter` (`main.go` lines 129-141). -/
def withCompressingWriterC {α : Type} (use : Bool) (w : WChain) (callback : WChain → α) : α :=
  if use then callback (WChain.comp w) else callback w

/-- The writer handed to `tar.NewWriter` in `send` (`main.go` lines 358-362):
the connection is wrapped by `withEncryptingWriter` first, then by
`withCompressingWriter`. -/
def sendChain (secure zip : Bool) : WChain :=
  withEncryptingWriterC secure WChain.socket (fun w =>
    withCompressingWriterC zip w (fun w => w))

/-- Bytes reaching the socket when `d` is written to the top of the chain,
with `encT`/`zipT` the byte transformations of the encryption and compression
layers. -/
def socketBytes (encT zipT : List Nat → List Nat) : WChain → List Nat → List Nat
  | WChain.socket, d => d
  | WChain.enc w, d => socketBytes encT zipT w (encT d)
  | WChain.comp w, d => socketBytes encT zipT w (zipT d)

/-- The chain of readers built in `receive` (`main.go` lines 218-230). -/
inductive RChain where
  | socket
  | dec (inner : RChain)
  | decomp (inner : RChain)
deriving DecidableEq, Repr

/-- `withDecrpytingReader` (`main.go` lines 163-178). -/
def withDecryptingReaderC {α : Type} (use : Bool) (r : RChain) (callback : RChain → α) : α :=
  if use then callback (RChain.dec r) else callback r

/-- `withDecompressingReader` (`main.go` lines 180-195). -/
def withDecompressingReaderC {α : Type} (use : Bool) (r : RChain) (callback : RChain → α) : α :=
  if use then callback (RChain.decomp r) else callback r

/-- The reader handed to `tar.NewReader` in `receive` (`main.go` 222-229). -/
def receiveChain (secure zip : Bool) : RChain :=
  withDecryptingReaderC secure RChain.socket (fun r =>
    withDecompressingReaderC zip r (fun r => r))

/-- Bytes the application reads from the top of the chain when the socket
delivers `d`, with `decT`/`unzipT` the byte transformations of the decryption
and decompression layers. -/
def appBytes (decT unzipT : List Nat → List Nat) : RChain → List Nat → List Nat
  | RChain.socket, d => d
  | RChain.dec r, d => decT (appBytes decT unzipT r d)
  | RChain.decomp r, d => unzipT (appBytes decT unzipT r d)

/-- `crypto/hmac` over an abstract hash with the given block size: pad (or
first hash, then pad) the key to the block size, then compute
`H((k0 xor opad) concat H((k0 xor ipad) concat msg))`. -/
def hmac (hash : List Nat → List Nat) (blockSize : Nat) (key msg : List Nat) : List Nat :=
  let k := if blockSize < key.length then hash key else key
  let k0 := k ++ List.replicate (blockSize - k.length) 0
  let ipadKey := k0.map (fun b => b ^^^ 0x36)
  let opadKey := k0.map (fun b => b ^^^ 0x5c)
  hash (opadKey ++ hash (ipadKey ++ msg))

/-- The SHA-512/256 block size in bytes (SHA-512/256 is the 256-bit-output
variant of SHA-512 and keeps its 128-byte block). -/
def sha512BlockSize : Nat := 128

/-- `Key32FromPassphrase` (`encryption.go` lines 14-24): HMAC keyed with the
domain `tag` over the `passphrase`, using SHA-512/256 (an external primitive,
the `hash` parameter) as the hash, truncated to the first 32 bytes. -/
def Key32FromPassphrase (hash : List Nat → List Nat) (tag passphrase : List Nat) : List Nat :=
  (hmac hash sha512BlockSize tag passphrase).take 32

/-- The key assignment in `main` (`main.go` line 57):
`key = Key32FromPassphrase(passphrase, passphrase)` — the key handed to the
codec for the run uses the passphrase itself as the tag argument. -/
def mainKey (hash : List Nat → List Nat) (passphrase : List Nat) : List Nat :=
  Key32FromPassphrase hash passphrase passphrase

/-- A tar entry name, broken at the path separators into components;
`filepath.Dir` is `List.dropLast` in this representation. -/
abbrev Path := List String

/-- Node kinds of the reconstructed destination tree. -/
inductive NodeKind where
  | dir | file | symlink | fifo
deriving DecidableEq, Repr

/-- One file-system entry of the destination tree.  A freshly created entry
carries the placeholder modification time 0 until `os.Chtimes` sets it. -/
structure Node where
  kind : NodeKind
  mode : Nat
  mtime : Nat
  content : List Nat := []
  linkTarget : Path := []
deriving DecidableEq, Repr

/-- The destination file system: the entry at each path, plus a journal of
the `os.Chtimes` calls in the order they were made. -/
structure FS where
  node : Path → Option Node
  chtimesTrace : List (Path × Nat)

def FS.empty : FS := { node := fun _ => none, chtimesTrace := [] }

/-- Create or overwrite the entry at `p`. -/
def FS.set (fs : FS) (p : Path) (nd : Node) : FS :=
  { fs with node := fun q => if q = p then some nd else fs.node q }

/-- `os.Chmod`. -/
def FS.chmod (fs : FS) (p : Path) (m : Nat) : FS :=
  { fs with node := fun q =>
      if q = p then (fs.node p).map (fun nd => { nd with mode := m }) else fs.node q }

/-- `os.Chtimes`: set the modification time of an existing entry and journal
the call. -/
def FS.chtimes (fs : FS) (p : Path) (t : Nat) : FS :=
  { node := fun q =>
      if q = p then (fs.node p).map (fun nd => { nd with mtime := t }) else fs.node q,
    chtimesTrace := fs.chtimesTrace ++ [(p, t)] }

/-- `os.Rename old new`: move the entry at `old` to `new`. -/
def FS.rename (fs : FS) (old new : Path) : FS :=
  { fs with node := fun q =>
      if q = new then fs.node old
      else if q = old then none
      else fs.node q }

/-- Helper for `os.MkdirAll`: create the first `k` component-prefixes of `p`
that are missing, each as a directory of mode `os.ModePerm` = 0o777
(`main.go` line 240); existing entries are left alone. -/
def mkdirUpTo (p : Path) : Nat → FS → FS
  | 0, fs => fs
  | k + 1, fs =>
    let fs' := mkdirUpTo p k fs
    match fs'.node (p.take (k + 1)) with
    | some _ => fs'
    | none => fs'.set (p.take (k + 1)) { kind := NodeKind.dir, mode := 0o777, mtime := 0 }

/-- `os.MkdirAll(p, os.ModePerm)`. -/
def FS.mkdirAll (fs : FS) (p : Path) : FS := mkdirUpTo p p.length fs

/-- The tar record kinds that `receive` distinguishes (`main.go` 244-284). -/
inductive TypeFlag where
  | dir | link | symlink | fifo | reg
deriving DecidableEq, Repr

/-- The fields of `tar.Header` that the extractor reads. -/
structure Header where
  name : Path
  typeflag : TypeFlag
  mode : Nat
  size : Nat
  mtime : Nat
  linkname : Path := []
deriving DecidableEq, Repr

/-- `th.Name + ".partial"` (`main.go` line 309): the sibling temporary path,
same parent directory, last component suffixed. -/
def tempPath (p : Path) : Path :=
  p.dropLast ++ [p.getLastD "" ++ ".partial"]

/-- `makeRegular` (`main.go` lines 306-328): write the payload to the sibling
temporary path, compare the written byte count with the header's declared
size, and only on an exact match rename into place and set the modification
time.  `payload` is what `io.CopyBuffer` drained from the tar entry. -/
def makeRegular (fs : FS) (th : Header) (payload : List Nat) : FS × Option Err :=
  let tempName := tempPath th.name
  let fs1 := fs.set tempName { kind := NodeKind.file, mode := th.mode, mtime := 0, content := payload }
  let nc := payload.length
  if nc ≠ th.size then (fs1, some (Err.misWrite nc th.size))
  else
    let fs2 := fs1.rename tempName th.name
    (fs2.chtimes th.name th.mtime, none)

/-- `dirBlurb` (`main.go` lines 198-201): name and modification time of a
directory entry, stored for the deferred mtime pass. -/
structure DirBlurb where
  name : Path
  modTime : Nat
deriving DecidableEq, Repr

/-- The loop-local state of `receive`: the destination file system and the
`directories` slice. -/
structure RecvState where
  fs : FS
  directories : List DirBlurb

/-- One iteration of the record loop in `receive` (`main.go` lines 231-284):
ensure the parent path exists, then dispatch on the record kind.  A directory
record appends to `directories` and does not touch any modification time; a
hard link is created from its target and gets its mtime set; a symlink gets
no mtime (platform limitation noted in the source); a FIFO uses the unix
adapter (`main_unix.go`): mkfifo then chtimes; everything else goes through
`makeRegular`. -/
def processRecord (st : RecvState) (th : Header) (payload : List Nat) : RecvState × Option Err :=
  let fs := st.fs.mkdirAll th.name.dropLast
  match th.typeflag with
  | TypeFlag.dir =>
    let fs' :=
      match fs.node th.name with
      | some _ => fs.chmod th.name th.mode
      | none => fs.set th.name { kind := NodeKind.dir, mode := th.mode, mtime := 0 }
    ({ fs := fs', directories := st.directories ++ [⟨th.name, th.mtime⟩] }, none)
  | TypeFlag.link =>
    match fs.node th.linkname with
    | none => ({ st with fs := fs }, some Err.linkMissing)
    | some nd => ({ st with fs := (fs.set th.name nd).chtimes th.name th.mtime }, none)
  | TypeFlag.symlink =>
    ({ st with fs := (fs.set th.name
        { kind := NodeKind.symlink, mode := th.mode, mtime := 0, linkTarget := th.linkname }) }, none)
  | TypeFlag.fifo =>
    ({ st with fs := (fs.set th.name
        { kind := NodeKind.fifo, mode := th.mode, mtime := 0 }).chtimes th.name th.mtime }, none)
  | TypeFlag.reg =>
    let r := makeRegular fs th payload
    ({ st with fs := r.1 }, r.2)

/-- The record loop: process records in arrival order, stopping at the first
error. -/
def processRecords (st : RecvState) : List (Header × List Nat) → RecvState × Option Err
  | [] => (st, none)
  | r :: rest =>
    let p := processRecord st r.1 r.2
    match p.2 with
    | some e => (p.1, some e)
    | none => processRecords p.1 rest

/-- The deferred-mtime pass (`main.go` lines 293-298): walk the `directories`
list backwards, applying each stored modification time. -/
def applyDirTimes (fs : FS) (ds : List DirBlurb) : FS :=
  ds.reverse.foldl (fun fs d => fs.chtimes d.name d.modTime) fs

/-- A concrete stand-in hash of output length 32, for witnesses. -/
def toyHash (m : List Nat) : List Nat :=
  List.replicate 31 0 ++ [(m.sum + m.length) % 256]

/-- A concrete 16-byte tag over (nonce, plaintext), for the stand-in AEAD. -/
def toyTag (nonce pt : List Nat) : List Nat :=
  List.replicate 15 0 ++ [(nonce.sum + pt.sum + pt.length) % 256]

/-- A concrete lawful stand-in AEAD for witnesses: `seal` appends the 16-byte
`toyTag`; `unseal` checks and strips it. -/
def toyAEAD : AEAD :=
  { gcmSeal := fun nonce pt => pt ++ toyTag nonce pt,
    gcmOpen := fun nonce ct =>
      if 16 ≤ ct.length then
        let pt := ct.take (ct.length - 16)
        if ct = pt ++ toyTag nonce pt then some pt else none
      else none }

/-- The eight big-endian digits are faithful: decoding (`Uint64`) inverts
encoding (`PutUint64`) below `2 ^ 64`. -/
theorem fromBE8_toBE8 (n : Nat) (h : n < 18446744073709551616) :
    fromBE8 (toBE8 n) = n := by
  simp only [toBE8, fromBE8, List.foldl]
  omega

theorem length_toBE8 (n : Nat) : (toBE8 n).length = 8 := rfl

theorem toyTag_length (nonce pt : List Nat) : (toyTag nonce pt).length = 16 := by
  simp [toyTag]

/-- The stand-in AEAD satisfies the two laws the codec relies on. -/
theorem toyAEAD_lawful : AEADLawful toyAEAD := by
  constructor
  · intro nonce pt
    simp [toyAEAD, toyTag]
  · intro nonce pt
    have hlen : (pt ++ toyTag nonce pt).length = pt.length + 16 := by
      simp [toyTag]
    have htake : (pt ++ toyTag nonce pt).take ((pt ++ toyTag nonce pt).length - 16) = pt := by
      rw [hlen, Nat.add_sub_cancel]
      exact List.take_left pt (toyTag nonce pt)
    simp only [toyAEAD]
    rw [if_pos (by omega), htake, if_pos rfl]

/-- Claim C2 as stated is false on the code: in `send`, the connection is
wrapped by the encryptor first and by the gzip writer second, so encryption is
OUTERMOST (nearest the socket), not innermost.  With the prepend-a-marker
transformations and empty application data, the socket would have to see
`[1, 0]` under the claimed nesting, but the code produces `[0, 1]`. -/
theorem C2_layer_order_counterexample :
    ¬ ∀ (encT zipT : List Nat → List Nat) (d : List Nat),
        socketBytes encT zipT (sendChain true true) d = zipT (encT d) := by
  intro h
  have h1 := h (fun l => 0 :: l) (fun l => 1 :: l) []
  simp [sendChain, withEncryptingWriterC, withCompressingWriterC, socketBytes] at h1

/-- Claim C2, amended: on the send path compression is innermost (applied to
the application bytes first) and encryption is outermost (nearest the
socket); the receive path unwraps in the opposite order: socket, then
decryption, then decompression, then application. -/
theorem C2_layer_order_amended (encT zipT decT unzipT : List Nat → List Nat)
    (d w : List Nat) :
    sendChain true true = WChain.comp (WChain.enc WChain.socket) ∧
    socketBytes encT zipT (sendChain true true) d = encT (zipT d) ∧
    receiveChain true true = RChain.decomp (RChain.dec RChain.socket) ∧
    appBytes decT unzipT (receiveChain true true) w = unzipT (decT w) :=
  ⟨rfl, rfl, rfl, rfl⟩

/-- Claim C6 as stated is false on the code: the tag handed to
`Key32FromPassphrase` at `main.go` line 57 is the passphrase itself, not a
fixed domain tag.  Formally, no single fixed tag T reproduces the key of
every run: any fixed-tag derivation over this hash agrees on the passphrases
`[0, 2]` and `[1, 1]` (their HMAC inputs as messages hash alike), yet the
code derives different keys for them, because changing the passphrase also
changes the HMAC key. -/
theorem C6_fixed_tag_counterexample :
    ¬ ∃ tag : List Nat, ∀ pass : List Nat,
        mainKey toyHash pass = Key32FromPassphrase toyHash tag pass := by
  rintro ⟨tag, h⟩
  have hcongr : ∀ X : List Nat, toyHash (X ++ [0, 2]) = toyHash (X ++ [1, 1]) := by
    intro X
    simp [toyHash, List.sum_append]
  have heq : Key32FromPassphrase toyHash tag [0, 2] = Key32FromPassphrase toyHash tag [1, 1] := by
    simp only [Key32FromPassphrase, hmac]
    rw [hcongr]
  have h1 := h [0, 2]
  rw [heq, ← h [1, 1]] at h1
  exact absurd h1 (by decide)

/-- Claim C6, amended: the 32-byte key handed to the codec is
`Key32FromPassphrase(passphrase, passphrase)` — HMAC over the (externally
supplied) SHA-512/256 hash, keyed with the passphrase itself, which serves as
both the domain tag and the message — truncated to 32 bytes; it has length
32, and the derivation is deterministic in the passphrase alone. -/
theorem C6_key_derivation_amended (hash : List Nat → List Nat)
    (hlen : ∀ m, (hash m).length = 32)
    (pass pass2 : List Nat) (h : pass = pass2) :
    mainKey hash pass = (hmac hash sha512BlockSize pass pass).take 32 ∧
    (mainKey hash pass).length = 32 ∧
    mainKey hash pass = mainKey hash pass2 := by
  refine ⟨rfl, ?_, by rw [h]⟩
  simp [mainKey, Key32FromPassphrase, hmac, hlen]

/-- Witness for the amended C6 at a concrete hash and passphrase. -/
theorem C6_key_derivation_amended_witness :
    mainKey toyHash [2] = (hmac toyHash sha512BlockSize [2] [2]).take 32 ∧
    (mainKey toyHash [2]).length = 32 ∧
    mainKey toyHash [2] = mainKey toyHash [2] :=
  C6_key_derivation_amended toyHash (fun m => by simp [toyHash]) [2] [2] rfl

theorem writeFrame_eq (s : EncState) (d : List Nat) (h : s.err = none) :
    writeFrame s d = { s with frames := s.frames ++ [⟨s.nonce, d⟩] } := by
  simp [writeFrame, h]

theorem Flush_eq (s : EncState) (h : s.err = none) :
    Flush s = if 0 < s.buf.length
      then { s with buf := [], frames := s.frames ++ [⟨s.nonce, s.buf⟩] }
      else s := by
  simp only [Flush, writeFrame_eq s s.buf h, h, Option.isSome_none, Bool.false_eq_true,
    if_false]

/-- Claim C9: once the sticky error slot holds an error, `Write`, `Flush` and
`Read` all return it immediately, leaving the state (and hence the underlying
transport and input stream) untouched. -/
theorem C9_sticky_errors (e : Err) (s : EncState) (d : List Nat)
    (A : AEAD) (t : DecState) (n : Nat)
    (hs : s.err = some e) (ht : t.err = some e) :
    EWrite s d = (s, 0) ∧ Flush s = s ∧ writeFrame s d = s ∧ DecRead A t n = ([], t) := by
  have hs' : s.err.isSome = true := by simp [hs]
  have ht' : t.err.isSome = true := by simp [ht]
  refine ⟨?_, ?_, ?_, ?_⟩ <;> simp [EWrite, Flush, writeFrame, DecRead, hs', ht']

/-- Witness for C9 at a concrete failed encryptor and decryptor. -/
theorem C9_sticky_errors_witness :
    EWrite ⟨[3], [7], [], some Err.eof, false⟩ [9] = (⟨[3], [7], [], some Err.eof, false⟩, 0) ∧
    Flush ⟨[3], [7], [], some Err.eof, false⟩ = ⟨[3], [7], [], some Err.eof, false⟩ ∧
    writeFrame ⟨[3], [7], [], some Err.eof, false⟩ [9] = ⟨[3], [7], [], some Err.eof, false⟩ ∧
    DecRead toyAEAD ⟨[3], 0, [], [1, 2], some Err.eof⟩ 5 = ([], ⟨[3], 0, [], [1, 2], some Err.eof⟩) :=
  C9_sticky_errors Err.eof ⟨[3], [7], [], some Err.eof, false⟩ [9]
    toyAEAD ⟨[3], 0, [], [1, 2], some Err.eof⟩ 5 rfl rfl

theorem EWrite_eq_fit (s : EncState) (d : List Nat) (h : s.err = none)
    (hfit : s.buf.length + d.length ≤ 1024) :
    EWrite s d = ({ s with buf := s.buf ++ d }, d.length) := by
  simp [EWrite, h, EncryptionChunkSize, hfit]

theorem EWrite_eq_flush (s : EncState) (d : List Nat) (h : s.err = none)
    (hover : 1024 < s.buf.length + d.length) (hfit : d.length ≤ 1024) :
    EWrite s d = ({ s with buf := d, frames := s.frames ++ [⟨s.nonce, s.buf⟩] }, d.length) := by
  have hflush := Flush_eq s h
  have hbuf : 0 < s.buf.length := by omega
  have h1 : ¬ (s.buf.length + d.length ≤ 1024) := by omega
  simp [EWrite, h, EncryptionChunkSize, h1, hflush, hbuf, hfit]

theorem EWrite_eq_big (s : EncState) (d : List Nat) (h : s.err = none)
    (hbig : 1024 < d.length) :
    EWrite s d = ({ s with
      buf := [],
      frames := (s.frames ++ (if s.buf = [] then [] else [⟨s.nonce, s.buf⟩]))
        ++ [⟨s.nonce, d⟩] }, d.length) := by
  have hflush := Flush_eq s h
  have h1 : ¬ (s.buf.length + d.length ≤ 1024) := by omega
  have h2 : ¬ (d.length ≤ 1024) := by omega
  by_cases hbe : s.buf = []
  · have hbuf : ¬ 0 < s.buf.length := by simp [hbe]
    simp [EWrite, h, EncryptionChunkSize, h1, h2, hflush, hbuf, hbe, writeFrame]
  · have hbuf : 0 < s.buf.length := by
      cases hb : s.buf with
      | nil => exact absurd hb hbe
      | cons a l => simp [hb]
    simp [EWrite, h, EncryptionChunkSize, h1, h2, hflush, hbuf, hbe, writeFrame]

/-- Claim C7: with no pending error, a write that fits is buffered without
emitting a frame; an overflowing write first seals the pending buffer as one
frame, then buffers the new data if it fits on its own, else seals it
directly as its own frame without buffering; `Close` flushes a non-empty
buffer only (never an empty frame) and leaves the transport open. -/
theorem C7_write_close (s : EncState) (d : List Nat) (h : s.err = none) :
    (s.buf.length + d.length ≤ 1024 →
      EWrite s d = ({ s with buf := s.buf ++ d }, d.length)) ∧
    (1024 < s.buf.length + d.length → d.length ≤ 1024 →
      EWrite s d = ({ s with buf := d, frames := s.frames ++ [⟨s.nonce, s.buf⟩] }, d.length)) ∧
    (1024 < d.length →
      EWrite s d = ({ s with
        buf := [],
        frames := (s.frames ++ (if s.buf = [] then [] else [⟨s.nonce, s.buf⟩]))
          ++ [⟨s.nonce, d⟩] }, d.length)) ∧
    (EClose s).frames = s.frames ++ (if s.buf = [] then [] else [⟨s.nonce, s.buf⟩]) ∧
    (∀ f ∈ (EClose s).frames, f ∈ s.frames ∨ f.pt ≠ []) ∧
    (EClose s).transportClosed = s.transportClosed := by
  have hflush := Flush_eq s h
  refine ⟨EWrite_eq_fit s d h, EWrite_eq_flush s d h, EWrite_eq_big s d h, ?_, ?_, ?_⟩
  · by_cases hbe : s.buf = []
    · have hbuf : ¬ 0 < s.buf.length := by simp [hbe]
      simp [EClose, hflush, hbuf, hbe]
    · have hbuf : 0 < s.buf.length := by
        cases hb : s.buf with
        | nil => exact absurd hb hbe
        | cons a l => simp [hb]
      simp [EClose, hflush, hbuf, hbe]
  · intro f hf
    rw [EClose, hflush] at hf
    by_cases hbuf : 0 < s.buf.length
    · rw [if_pos hbuf] at hf
      simp only [List.mem_append, List.mem_singleton] at hf
      rcases hf with hf | hf
      · exact Or.inl hf
      · right
        rw [hf]
        intro hc
        simp only [] at hc
        rw [hc] at hbuf
        simp at hbuf
    · rw [if_neg hbuf] at hf
      exact Or.inl hf
  · rw [EClose, hflush]
    by_cases hbuf : 0 < s.buf.length
    · rw [if_pos hbuf]
    · rw [if_neg hbuf]

/-- Witness for C7: a fitting write is buffered and emits no frame. -/
theorem C7_write_close_witness :
    EWrite ⟨[3], [7], [], none, false⟩ [9] = (⟨[3], [7, 9], [], none, false⟩, 1) :=
  (C7_write_close ⟨[3], [7], [], none, false⟩ [9] rfl).1 (by decide)

theorem nonce_writeFrame (s : EncState) (d : List Nat) :
    (writeFrame s d).nonce = s.nonce := by
  unfold writeFrame
  split <;> rfl

theorem frames_nonce_writeFrame (s : EncState) (d : List Nat)
    (hs : ∀ f ∈ s.frames, f.nonceUsed = s.nonce) :
    ∀ f ∈ (writeFrame s d).frames, f.nonceUsed = s.nonce := by
  unfold writeFrame
  split
  · exact hs
  · intro f hf
    simp only [List.mem_append, List.mem_singleton] at hf
    rcases hf with hf | hf
    · exact hs f hf
    · rw [hf]

theorem nonce_Flush (s : EncState) : (Flush s).nonce = s.nonce := by
  unfold Flush
  split_ifs <;> simp [nonce_writeFrame]

theorem frames_nonce_Flush (s : EncState)
    (hs : ∀ f ∈ s.frames, f.nonceUsed = s.nonce) :
    ∀ f ∈ (Flush s).frames, f.nonceUsed = s.nonce := by
  unfold Flush
  split_ifs with h1 h2
  · exact hs
  · exact frames_nonce_writeFrame s s.buf hs
  · exact hs

theorem nonce_EWrite (s : EncState) (d : List Nat) :
    (EWrite s d).1.nonce = s.nonce := by
  simp only [EWrite]
  split_ifs <;> simp [nonce_writeFrame, nonce_Flush]

theorem frames_nonce_EWrite (s : EncState) (d : List Nat)
    (hs : ∀ f ∈ s.frames, f.nonceUsed = s.nonce) :
    ∀ f ∈ (EWrite s d).1.frames, f.nonceUsed = s.nonce := by
  have hF := frames_nonce_Flush s hs
  have hFn := nonce_Flush s
  have hW : ∀ f ∈ (writeFrame (Flush s) d).frames, f.nonceUsed = s.nonce := by
    intro f hf
    have := frames_nonce_writeFrame (Flush s) d (by rw [hFn]; exact hF) f hf
    rw [hFn] at this
    exact this
  simp only [EWrite]
  split_ifs <;> simp only [] <;> first
    | exact hs
    | exact hF
    | exact hW

theorem encryptAll_cons (s : EncState) (w : List Nat) (ws : List (List Nat)) :
    encryptAll s (w :: ws) = encryptAll (EWrite s w).1 ws := rfl

theorem encryptAll_nonces (writes : List (List Nat)) :
    ∀ s : EncState, (∀ f ∈ s.frames, f.nonceUsed = s.nonce) →
      (encryptAll s writes).nonce = s.nonce ∧
      ∀ f ∈ (encryptAll s writes).frames, f.nonceUsed = s.nonce := by
  induction writes with
  | nil => exact fun s hs => ⟨rfl, hs⟩
  | cons w ws ih =>
    intro s hs
    have h1 := nonce_EWrite s w
    have h2 := frames_nonce_EWrite s w hs
    obtain ⟨ha, hb⟩ := ih (EWrite s w).1 (by rw [h1]; exact h2)
    rw [encryptAll_cons, ha, h1]
    refine ⟨rfl, fun f hf => ?_⟩
    have := hb f hf
    rw [h1] at this
    exact this

/-- Claim C1 as stated is false on the code: one concrete encryptor instance
(nonce `[3]`, two oversized writes) emits two frames, and both frames were
sealed with the same nonce, so two of the N frame nonces are equal.  The code
never generates a per-frame nonce: `writeFrame` always seals with the single
`se.nonce` drawn in `NewEncryptor`. -/
theorem C1_nonce_reuse_counterexample :
    (encryptClose [3] [List.replicate 1025 0, List.replicate 1025 1]).frames.length = 2 ∧
    ((encryptClose [3] [List.replicate 1025 0, List.replicate 1025 1]).frames.map
      Frame.nonceUsed) = [[3], [3]] := by
  constructor <;> rfl

/-- Claim C1, amended: each `StreamEncryptor` instance draws a single random
nonce at construction, writes it once at the head of the stream, and seals
EVERY frame with that same instance nonce; consequently all N frame nonces of
one instance are equal (rather than pairwise distinct). -/
theorem C1_nonce_reuse_amended (nonce : List Nat) (writes : List (List Nat)) :
    (∀ f ∈ (encryptClose nonce writes).frames, f.nonceUsed = nonce) ∧
    ∀ f ∈ (encryptClose nonce writes).frames, ∀ g ∈ (encryptClose nonce writes).frames,
      f.nonceUsed = g.nonceUsed := by
  have base : ∀ f ∈ (newEncryptor nonce).frames, f.nonceUsed = (newEncryptor nonce).nonce := by
    intro f hf
    simp [newEncryptor] at hf
  obtain ⟨h1, h2⟩ := encryptAll_nonces writes (newEncryptor nonce) base
  have h3 : ∀ f ∈ (encryptClose nonce writes).frames, f.nonceUsed = nonce := by
    intro f hf
    have := frames_nonce_Flush (encryptAll (newEncryptor nonce) writes)
      (fun g hg => by rw [h1]; exact h2 g hg) f hf
    rw [h1] at this
    exact this
  exact ⟨h3, fun f hf g hg => by rw [h3 f hf, h3 g hg]⟩

/-- Witness for the amended C1: a concrete frame of a concrete two-frame run,
shown to carry the instance nonce. -/
theorem C1_nonce_reuse_amended_witness :
    (Frame.mk [3] (List.replicate 1025 0)).nonceUsed = [3] :=
  (C1_nonce_reuse_amended [3] [List.replicate 1025 0, List.replicate 1025 1]).1
    (Frame.mk [3] (List.replicate 1025 0)) (by decide)

theorem EWrite_spec (s : EncState) (d : List Nat) (h : s.err = none)
    (hbuf : s.buf.length ≤ 1024)
    (hfr : ∀ f ∈ s.frames, f.pt ≠ [] ∧ f.pt.length + 16 < 9223372036854775808)
    (hd : d.length + 16 < 9223372036854775808) :
    (EWrite s d).1.err = none ∧
    (EWrite s d).1.buf.length ≤ 1024 ∧
    (∀ f ∈ (EWrite s d).1.frames, f.pt ≠ [] ∧ f.pt.length + 16 < 9223372036854775808) ∧
    ((EWrite s d).1.frames.map Frame.pt).flatten ++ (EWrite s d).1.buf
      = (s.frames.map Frame.pt).flatten ++ s.buf ++ d := by
  by_cases h1 : s.buf.length + d.length ≤ 1024
  · rw [EWrite_eq_fit s d h h1]
    refine ⟨h, ?_, hfr, by simp⟩
    show (s.buf ++ d).length ≤ 1024
    simp only [List.length_append]
    exact h1
  · by_cases h2 : d.length ≤ 1024
    · have hover : 1024 < s.buf.length + d.length := by omega
      rw [EWrite_eq_flush s d h hover h2]
      have hbe : s.buf ≠ [] := by
        intro hc
        rw [hc] at h1
        simp at h1
        omega
      refine ⟨h, h2, ?_, ?_⟩
      · intro f hf
        simp only [List.mem_append, List.mem_singleton] at hf
        rcases hf with hf | hf
        · exact hfr f hf
        · rw [hf]
          refine ⟨hbe, ?_⟩
          show s.buf.length + 16 < 9223372036854775808
          omega
      · simp [List.append_assoc]
    · have hbig : 1024 < d.length := by omega
      rw [EWrite_eq_big s d h hbig]
      refine ⟨h, by simp, ?_, ?_⟩
      · intro f hf
        simp only [List.mem_append, List.mem_singleton] at hf
        rcases hf with (hf | hf) | hf
        · exact hfr f hf
        · by_cases hbe : s.buf = []
          · rw [if_pos hbe] at hf
            simp at hf
          · rw [if_neg hbe] at hf
            simp only [List.mem_singleton] at hf
            rw [hf]
            refine ⟨hbe, ?_⟩
            show s.buf.length + 16 < 9223372036854775808
            omega
        · rw [hf]
          refine ⟨?_, hd⟩
          show d ≠ []
          intro hc
          rw [hc] at hbig
          simp at hbig
      · by_cases hbe : s.buf = []
        · simp [hbe]
        · rw [if_neg hbe]
          simp

theorem encryptAll_spec (writes : List (List Nat)) :
    ∀ s : EncState, (∀ w ∈ writes, w.length + 16 < 9223372036854775808) →
      s.err = none → s.buf.length ≤ 1024 →
      (∀ f ∈ s.frames, f.pt ≠ [] ∧ f.pt.length + 16 < 9223372036854775808) →
      (encryptAll s writes).err = none ∧
      (encryptAll s writes).buf.length ≤ 1024 ∧
      (∀ f ∈ (encryptAll s writes).frames, f.pt ≠ [] ∧ f.pt.length + 16 < 9223372036854775808) ∧
      ((encryptAll s writes).frames.map Frame.pt).flatten ++ (encryptAll s writes).buf
        = (s.frames.map Frame.pt).flatten ++ s.buf ++ writes.flatten := by
  induction writes with
  | nil =>
    intro s _ h hbuf hfr
    exact ⟨h, hbuf, hfr, by simp [encryptAll]⟩
  | cons w ws ih =>
    intro s hw h hbuf hfr
    obtain ⟨e1, e2, e3, e4⟩ := EWrite_spec s w h hbuf hfr (hw w (by simp))
    obtain ⟨a1, a2, a3, a4⟩ := ih (EWrite s w).1 (fun v hv => hw v (by simp [hv])) e1 e2 e3
    rw [encryptAll_cons]
    refine ⟨a1, a2, a3, ?_⟩
    rw [a4, e4]
    simp

theorem EClose_spec (s : EncState) (h : s.err = none)
    (hfr : ∀ f ∈ s.frames, f.pt ≠ [] ∧ f.pt.length + 16 < 9223372036854775808)
    (hbuf : s.buf.length ≤ 1024) :
    (EClose s).err = none ∧
    (∀ f ∈ (EClose s).frames, f.pt ≠ [] ∧ f.pt.length + 16 < 9223372036854775808) ∧
    ((EClose s).frames.map Frame.pt).flatten = (s.frames.map Frame.pt).flatten ++ s.buf := by
  have hflush := Flush_eq s h
  rw [EClose, hflush]
  by_cases hbuf0 : 0 < s.buf.length
  · have hbe : s.buf ≠ [] := by
      intro hc
      rw [hc] at hbuf0
      simp at hbuf0
    rw [if_pos hbuf0]
    refine ⟨h, ?_, by simp⟩
    intro f hf
    simp only [List.mem_append, List.mem_singleton] at hf
    rcases hf with hf | hf
    · exact hfr f hf
    · rw [hf]
      refine ⟨hbe, ?_⟩
      show s.buf.length + 16 < 9223372036854775808
      omega
  · have hbe : s.buf = [] := by
      cases hb : s.buf with
      | nil => rfl
      | cons a l => rw [hb] at hbuf0; simp at hbuf0
    rw [if_neg hbuf0]
    exact ⟨h, hfr, by simp [hbe]⟩

theorem encryptClose_spec (nonce : List Nat) (writes : List (List Nat))
    (hw : ∀ w ∈ writes, w.length + 16 < 9223372036854775808) :
    (encryptClose nonce writes).err = none ∧
    (encryptClose nonce writes).nonce = nonce ∧
    (∀ f ∈ (encryptClose nonce writes).frames,
      f.nonceUsed = nonce ∧ f.pt ≠ [] ∧ f.pt.length + 16 < 9223372036854775808) ∧
    ((encryptClose nonce writes).frames.map Frame.pt).flatten = writes.flatten := by
  obtain ⟨a1, a2, a3, a4⟩ := encryptAll_spec writes (newEncryptor nonce) hw rfl
    (by simp [newEncryptor]) (by simp [newEncryptor])
  obtain ⟨hn1, hn2⟩ := encryptAll_nonces writes (newEncryptor nonce) (by simp [newEncryptor])
  obtain ⟨c1, c2, c3⟩ := EClose_spec (encryptAll (newEncryptor nonce) writes) a1 a3 a2
  have hcn : ∀ f ∈ (encryptClose nonce writes).frames, f.nonceUsed = nonce := by
    intro f hf
    have := frames_nonce_Flush (encryptAll (newEncryptor nonce) writes)
      (fun g hg => by rw [hn1]; exact hn2 g hg) f hf
    rw [hn1] at this
    exact this
  refine ⟨c1, ?_, fun f hf => ⟨hcn f hf, c2 f hf⟩, ?_⟩
  · rw [encryptClose, EClose, nonce_Flush, hn1]
    rfl
  · rw [encryptClose, c3, a4]
    simp [newEncryptor]

theorem readAux_step (A : AEAD) (hA : AEADLawful A) (fuel n bi : Nat) (acc : List Nat)
    (s : DecState) (f : Frame) (rest : List Nat)
    (hdr : s.plaintext.length ≤ s.idx)
    (hnonce : f.nonceUsed = s.nonce) (hne : f.pt ≠ [])
    (hlen : f.pt.length + 16 < 9223372036854775808)
    (hin : s.input = frameBytes A f ++ rest)
    (hbi : bi + f.pt.length ≤ n) :
    ReadAux A (fuel + 2) n bi acc s =
      ReadAux A fuel n (bi + f.pt.length) (acc ++ f.pt)
        { s with input := rest, plaintext := f.pt, idx := f.pt.length } := by
  have hct : (A.gcmSeal f.nonceUsed f.pt).length = f.pt.length + 16 :=
    hA.seal_length f.nonceUsed f.pt
  have hfb : frameBytes A f
      = toBE8 (A.gcmSeal f.nonceUsed f.pt).length ++ A.gcmSeal f.nonceUsed f.pt := rfl
  have hptpos : 0 < f.pt.length := List.length_pos.mpr hne
  have hbn : bi < n := by omega
  have hin2 : s.input = toBE8 (A.gcmSeal f.nonceUsed f.pt).length
      ++ (A.gcmSeal f.nonceUsed f.pt ++ rest) := by
    rw [hin, hfb, List.append_assoc]
  have e4 : ¬ (s.input.length < 8) := by
    rw [hin2]
    simp [length_toBE8]
  have e1 : s.input.take 8 = toBE8 (A.gcmSeal f.nonceUsed f.pt).length := by
    rw [hin2]
    exact List.take_left' (length_toBE8 _)
  have e2 : s.input.drop 8 = A.gcmSeal f.nonceUsed f.pt ++ rest := by
    rw [hin2]
    exact List.drop_left' (length_toBE8 _)
  have e3 : fromBE8 (toBE8 (A.gcmSeal f.nonceUsed f.pt).length)
      = (A.gcmSeal f.nonceUsed f.pt).length :=
    fromBE8_toBE8 _ (by omega)
  have e5 : ¬ ((A.gcmSeal f.nonceUsed f.pt ++ rest).length
      < (A.gcmSeal f.nonceUsed f.pt).length) := by
    simp
  have e6 : (A.gcmSeal f.nonceUsed f.pt ++ rest).take (A.gcmSeal f.nonceUsed f.pt).length
      = A.gcmSeal f.nonceUsed f.pt :=
    List.take_left _ _
  have e7 : (A.gcmSeal f.nonceUsed f.pt ++ rest).drop (A.gcmSeal f.nonceUsed f.pt).length
      = rest :=
    List.drop_left _ _
  have e8 : A.gcmOpen s.nonce (A.gcmSeal f.nonceUsed f.pt) = some f.pt := by
    rw [← hnonce]
    exact hA.unseal_seal f.nonceUsed f.pt
  have e9 : ¬ (f.pt.length ≤ 0) := by omega
  have e10 : min (n - bi) f.pt.length = f.pt.length := by omega
  show ReadAux A (fuel + 1 + 1) n bi acc s = _
  rw [ReadAux, if_pos hbn, if_pos hdr, if_neg e4]
  simp only [e1, e2, e3, if_neg e5, e6, e7, e8]
  rw [ReadAux, if_pos hbn]
  simp only [List.length_nil, Nat.le_zero, e9, if_neg e9, Nat.sub_zero, e10,
    List.drop_zero, List.take_length, Nat.zero_add]
  rfl

theorem frames_bytes_length (A : AEAD) (F : List Frame) :
    8 * F.length ≤ ((F.map (frameBytes A)).flatten).length := by
  induction F with
  | nil => simp
  | cons f F ih =>
    simp only [List.map_cons, List.flatten_cons, List.length_append, List.length_cons]
    have : (frameBytes A f).length = 8 + (A.gcmSeal f.nonceUsed f.pt).length := by
      simp [frameBytes, length_toBE8]
    omega

theorem readAux_frames (A : AEAD) (hA : AEADLawful A) (F : List Frame) :
    ∀ (fuel n bi : Nat) (acc : List Nat) (s : DecState),
      s.plaintext.length ≤ s.idx →
      s.input = (F.map (frameBytes A)).flatten →
      (∀ f ∈ F, f.nonceUsed = s.nonce ∧ f.pt ≠ [] ∧ f.pt.length + 16 < 9223372036854775808) →
      bi + ((F.map Frame.pt).map List.length).sum < n →
      2 * F.length < fuel →
      (ReadAux A fuel n bi acc s).1 = acc ++ (F.map Frame.pt).flatten ∧
      (ReadAux A fuel n bi acc s).2.err = some Err.eof ∧
      (ReadAux A fuel n bi acc s).2.input = [] := by
  induction F with
  | nil =>
    intro fuel n bi acc s hdr hin hF hn hfuel
    obtain ⟨fuel, rfl⟩ : ∃ k, fuel = k + 1 := ⟨fuel - 1, by omega⟩
    have hbn : bi < n := by
      simp only [List.map_nil, List.sum_nil] at hn
      omega
    have hin0 : s.input = [] := by
      rw [hin]
      simp
    rw [ReadAux, if_pos hbn, if_pos hdr, if_pos (by rw [hin0]; simp)]
    simp [hin0]
  | cons f F ih =>
    intro fuel n bi acc s hdr hin hF hn hfuel
    simp only [List.length_cons] at hfuel
    obtain ⟨fuel, rfl⟩ : ∃ k, fuel = k + 2 := ⟨fuel - 2, by omega⟩
    obtain ⟨hfn, hfne, hflen⟩ := hF f (by simp)
    have hsum : ((List.map Frame.pt (f :: F)).map List.length).sum
        = f.pt.length + ((F.map Frame.pt).map List.length).sum := by
      simp only [List.map_cons, List.sum_cons]
    rw [hsum] at hn
    rw [readAux_step A hA fuel n bi acc s f ((F.map (frameBytes A)).flatten) hdr hfn hfne hflen
      (by rw [hin]; simp) (by omega)]
    have := ih fuel n (bi + f.pt.length) (acc ++ f.pt)
      { s with input := (F.map (frameBytes A)).flatten, plaintext := f.pt, idx := f.pt.length }
      (by simp) rfl
      (by
        intro g hg
        exact hF g (by simp [hg]))
      (by omega) (by omega)
    simpa [List.append_assoc] using this

theorem readAux_badframe (A : AEAD) (hA : AEADLawful A) (F : List Frame) :
    ∀ (fuel n bi : Nat) (acc : List Nat) (s : DecState) (ct suffix : List Nat),
      s.plaintext.length ≤ s.idx →
      s.input = (F.map (frameBytes A)).flatten ++ (toBE8 ct.length ++ ct) ++ suffix →
      (∀ f ∈ F, f.nonceUsed = s.nonce ∧ f.pt ≠ [] ∧ f.pt.length + 16 < 9223372036854775808) →
      A.gcmOpen s.nonce ct = none →
      ct.length < 18446744073709551616 →
      bi + ((F.map Frame.pt).map List.length).sum < n →
      2 * F.length < fuel →
      (ReadAux A fuel n bi acc s).1 = acc ++ (F.map Frame.pt).flatten ∧
      (ReadAux A fuel n bi acc s).2.err = some Err.authFailure := by
  induction F with
  | nil =>
    intro fuel n bi acc s ct suffix hdr hin hF hbad hctlen hn hfuel
    obtain ⟨fuel, rfl⟩ : ∃ k, fuel = k + 1 := ⟨fuel - 1, by omega⟩
    have hbn : bi < n := by
      simp only [List.map_nil, List.sum_nil] at hn
      omega
    have hin2 : s.input = toBE8 ct.length ++ (ct ++ suffix) := by
      rw [hin]
      simp
    have e4 : ¬ (s.input.length < 8) := by
      rw [hin2]
      simp [length_toBE8]
    have e1 : s.input.take 8 = toBE8 ct.length := by
      rw [hin2]
      exact List.take_left' (length_toBE8 _)
    have e2 : s.input.drop 8 = ct ++ suffix := by
      rw [hin2]
      exact List.drop_left' (length_toBE8 _)
    have e3 : fromBE8 (toBE8 ct.length) = ct.length := fromBE8_toBE8 _ hctlen
    have e5 : ¬ ((ct ++ suffix).length < ct.length) := by simp
    have e6 : (ct ++ suffix).take ct.length = ct := List.take_left _ _
    rw [ReadAux, if_pos hbn, if_pos hdr, if_neg e4]
    simp only [e1, e2, e3, if_neg e5, e6, hbad]
    simp
  | cons f F ih =>
    intro fuel n bi acc s ct suffix hdr hin hF hbad hctlen hn hfuel
    simp only [List.length_cons] at hfuel
    obtain ⟨fuel, rfl⟩ : ∃ k, fuel = k + 2 := ⟨fuel - 2, by omega⟩
    obtain ⟨hfn, hfne, hflen⟩ := hF f (by simp)
    have hsum : ((List.map Frame.pt (f :: F)).map List.length).sum
        = f.pt.length + ((F.map Frame.pt).map List.length).sum := by
      simp only [List.map_cons, List.sum_cons]
    rw [hsum] at hn
    rw [readAux_step A hA fuel n bi acc s f
      ((F.map (frameBytes A)).flatten ++ (toBE8 ct.length ++ ct) ++ suffix) hdr hfn hfne hflen
      (by rw [hin]; simp) (by omega)]
    have := ih fuel n (bi + f.pt.length) (acc ++ f.pt)
      { s with
        input := (F.map (frameBytes A)).flatten ++ (toBE8 ct.length ++ ct) ++ suffix,
        plaintext := f.pt, idx := f.pt.length }
      ct suffix (by simp) rfl
      (by
        intro g hg
        exact hF g (by simp [hg]))
      hbad hctlen (by omega) (by omega)
    simpa [List.append_assoc] using this

/-- Claim C3: for every sequence of writes (hence every byte sequence,
including sizes 0, 1, C-1, C, C+1 and multiples of the chunk capacity
C = 1024), encrypting through a `StreamEncryptor` followed by `Close` and
decrypting the produced stream through a `StreamDecryptor` built with the
same key (the same AEAD instance, whose nonce is recovered from the stream
head) reproduces the input exactly; the read past the end reports a clean
end-of-stream. -/
theorem C3_roundtrip (A : AEAD) (hA : AEADLawful A) (nonce : List Nat)
    (hnl : nonce.length = nonceSize) (writes : List (List Nat))
    (hw : ∀ w ∈ writes, w.length + 16 < 9223372036854775808)
    (n : Nat) (hn : (writes.map List.length).sum < n) :
    ∃ s0 : DecState,
      newDecryptor (wireOf A (encryptClose nonce writes)) = some s0 ∧
      (DecRead A s0 n).1 = writes.flatten ∧
      (DecRead A s0 n).2.err = some Err.eof := by
  obtain ⟨e1, e2, e3, e4⟩ := encryptClose_spec nonce writes hw
  set F := (encryptClose nonce writes).frames with hF
  have hwire : wireOf A (encryptClose nonce writes)
      = nonce ++ (F.map (frameBytes A)).flatten := by
    rw [wireOf, e2]
  have hlen12 : nonceSize ≤ (wireOf A (encryptClose nonce writes)).length := by
    rw [hwire, List.length_append, hnl]
    omega
  refine ⟨_, by rw [newDecryptor, if_pos hlen12], ?_, ?_⟩ <;>
  · have htake : (wireOf A (encryptClose nonce writes)).take nonceSize = nonce := by
      rw [hwire]
      exact List.take_left' hnl
    have hdrop : (wireOf A (encryptClose nonce writes)).drop nonceSize
        = (F.map (frameBytes A)).flatten := by
      rw [hwire]
      exact List.drop_left' hnl
    have hsum : ((F.map Frame.pt).map List.length).sum = (writes.map List.length).sum := by
      rw [← List.length_flatten, ← List.length_flatten, e4]
    have hfr : ∀ f ∈ F, f.nonceUsed = nonce ∧ f.pt ≠ [] ∧
        f.pt.length + 16 < 9223372036854775808 := e3
    have hbytes := frames_bytes_length A F
    have hread := readAux_frames A hA F
      (n + ((F.map (frameBytes A)).flatten).length + 1) n 0 []
      { nonce := nonce, idx := 0, plaintext := [],
        input := (F.map (frameBytes A)).flatten, err := none }
      (by simp) rfl (by simpa using hfr) (by simp only [Nat.zero_add, hsum]; exact hn) (by omega)
    rw [DecRead]
    simp only [htake, hdrop]
    simp only [Option.isSome_none, Bool.false_eq_true, if_false]
    obtain ⟨r1, r2, r3⟩ := hread
    first
      | (rw [r1, e4]; simp)
      | exact r2

/-- Witness for C3 at a concrete AEAD, nonce and input. -/
theorem C3_roundtrip_witness :
    ∃ s0 : DecState,
      newDecryptor (wireOf toyAEAD (encryptClose (List.replicate 12 0) [[1, 2, 3]])) = some s0 ∧
      (DecRead toyAEAD s0 4).1 = [1, 2, 3] ∧
      (DecRead toyAEAD s0 4).2.err = some Err.eof := by
  have := C3_roundtrip toyAEAD toyAEAD_lawful (List.replicate 12 0) (by decide)
    [[1, 2, 3]] (by decide) 4 (by decide)
  simpa using this

/-- Claim C8: when the AEAD authentication of a frame fails during `Read`,
the call delivers exactly the bytes of the previously authenticated frames
(never partial or substituted plaintext from the bad frame), reports the
authentication error, and the decryptor is permanently failed: every further
`Read` returns the stored error and no bytes. -/
theorem C8_auth_failure (A : AEAD) (hA : AEADLawful A) (F : List Frame)
    (ct suffix : List Nat) (s : DecState) (n : Nat)
    (hs : s.err = none) (hdr : s.plaintext.length ≤ s.idx)
    (hF : ∀ f ∈ F, f.nonceUsed = s.nonce ∧ f.pt ≠ [] ∧ f.pt.length + 16 < 9223372036854775808)
    (hbad : A.gcmOpen s.nonce ct = none)
    (hctlen : ct.length < 18446744073709551616)
    (hin : s.input = (F.map (frameBytes A)).flatten ++ (toBE8 ct.length ++ ct) ++ suffix)
    (hn : ((F.map Frame.pt).map List.length).sum < n) :
    (DecRead A s n).1 = (F.map Frame.pt).flatten ∧
    (DecRead A s n).2.err = some Err.authFailure ∧
    ∀ m, DecRead A (DecRead A s n).2 m = ([], (DecRead A s n).2) := by
  have hbytes := frames_bytes_length A F
  have hine : s.input.length ≥ 8 * F.length := by
    rw [hin]
    simp only [List.length_append]
    omega
  have hread := readAux_badframe A hA F (n + s.input.length + 1) n 0 [] s ct suffix
    hdr hin hF hbad hctlen (by omega) (by omega)
  have hD : DecRead A s n = ReadAux A (n + s.input.length + 1) n 0 [] s := by
    rw [DecRead, if_neg (by simp [hs])]
  obtain ⟨r1, r2⟩ := hread
  refine ⟨by rw [hD]; simpa using r1, by rw [hD]; exact r2, ?_⟩
  intro m
  rw [DecRead, if_pos (by rw [hD]; simp [r2])]

/-- Witness for C8: a single unauthentic 16-byte frame yields no bytes, an
authentication error, and a permanently failed decryptor. -/
theorem C8_auth_failure_witness :
    (DecRead toyAEAD ⟨[5], 0, [], toBE8 16 ++ List.replicate 16 1, none⟩ 1).1 = [] ∧
    (DecRead toyAEAD ⟨[5], 0, [], toBE8 16 ++ List.replicate 16 1, none⟩ 1).2.err
      = some Err.authFailure ∧
    ∀ m, DecRead toyAEAD
        (DecRead toyAEAD ⟨[5], 0, [], toBE8 16 ++ List.replicate 16 1, none⟩ 1).2 m
      = ([], (DecRead toyAEAD ⟨[5], 0, [], toBE8 16 ++ List.replicate 16 1, none⟩ 1).2) := by
  have := C8_auth_failure toyAEAD toyAEAD_lawful [] (List.replicate 16 1) []
    ⟨[5], 0, [], toBE8 16 ++ List.replicate 16 1, none⟩ 1
    rfl (by decide) (by simp) (by decide) (by decide) (by simp [toBE8]) (by decide)
  simpa using this

theorem tempPath_length (p : Path) : (tempPath p).length = p.dropLast.length + 1 := by
  simp [tempPath]

theorem tempPath_ne (p : Path) : tempPath p ≠ p := by
  intro h
  rcases p.eq_nil_or_concat with rfl | ⟨q, a, rfl⟩
  · simp [tempPath] at h
  · rw [List.concat_eq_append] at h
    rw [tempPath, List.dropLast_concat] at h
    have ha : a ++ ".partial" = a := by
      have := List.append_inj_right h rfl
      simpa using this
    have h8 : (a ++ ".partial").length = a.length + 8 := by
      rw [String.length_append]
      rfl
    rw [ha] at h8
    omega

/-- Claim C4: extracting a regular-file record writes the payload to the
sibling `.partial` temporary path; when the byte count differs from the
header's declared size the result is the fatal mis-write error, no rename or
mtime update has happened, and no finalized file exists at the target path;
only on an exact match is the file renamed into place and its modification
time set, with the temporary path gone. -/
theorem C4_makeRegular (fs : FS) (th : Header) (payload : List Nat)
    (h0 : fs.node th.name = none) :
    (payload.length ≠ th.size →
      (makeRegular fs th payload).2 = some (Err.misWrite payload.length th.size) ∧
      (makeRegular fs th payload).1.node th.name = none ∧
      (makeRegular fs th payload).1.chtimesTrace = fs.chtimesTrace) ∧
    (payload.length = th.size →
      (makeRegular fs th payload).2 = none ∧
      (makeRegular fs th payload).1.node th.name =
        some { kind := NodeKind.file, mode := th.mode, mtime := th.mtime, content := payload } ∧
      (makeRegular fs th payload).1.node (tempPath th.name) = none ∧
      (makeRegular fs th payload).1.chtimesTrace = fs.chtimesTrace ++ [(th.name, th.mtime)]) := by
  have hne : th.name ≠ tempPath th.name := fun h => tempPath_ne th.name h.symm
  constructor
  · intro hmm
    simp [makeRegular, FS.set, hmm, hne, h0]
  · intro heq
    simp [makeRegular, FS.set, FS.rename, FS.chtimes, heq, hne, tempPath_ne th.name]

/-- Witness for C4 at a concrete record with a matching payload. -/
theorem C4_makeRegular_witness :
    (makeRegular FS.empty ⟨["a"], TypeFlag.reg, 420, 3, 99, []⟩ [1, 2, 3]).2 = none ∧
    (makeRegular FS.empty ⟨["a"], TypeFlag.reg, 420, 3, 99, []⟩ [1, 2, 3]).1.node ["a"] =
      some { kind := NodeKind.file, mode := 420, mtime := 99, content := [1, 2, 3] } ∧
    (makeRegular FS.empty ⟨["a"], TypeFlag.reg, 420, 3, 99, []⟩ [1, 2, 3]).1.node
      (tempPath ["a"]) = none ∧
    (makeRegular FS.empty ⟨["a"], TypeFlag.reg, 420, 3, 99, []⟩ [1, 2, 3]).1.chtimesTrace =
      FS.empty.chtimesTrace ++ [(["a"], 99)] :=
  (C4_makeRegular FS.empty ⟨["a"], TypeFlag.reg, 420, 3, 99, []⟩ [1, 2, 3] rfl).2 rfl

theorem chtimesTrace_mkdirUpTo (p : Path) (k : Nat) (fs : FS) :
    (mkdirUpTo p k fs).chtimesTrace = fs.chtimesTrace := by
  induction k with
  | zero => rfl
  | succ k ih =>
    rw [mkdirUpTo]
    cases hn : (mkdirUpTo p k fs).node (p.take (k + 1)) <;> simp [FS.set, ih]

theorem processRecord_directories (st : RecvState) (th : Header) (payload : List Nat) :
    (processRecord st th payload).1.directories
      = st.directories ++ (if th.typeflag = TypeFlag.dir then [⟨th.name, th.mtime⟩] else []) := by
  cases hty : th.typeflag
  case dir =>
    simp only [processRecord, hty]
    cases hn : (st.fs.mkdirAll th.name.dropLast).node th.name <;> simp [hn]
  case link =>
    simp only [processRecord, hty]
    cases hn : (st.fs.mkdirAll th.name.dropLast).node th.linkname <;> simp [hn]
  case symlink => simp [processRecord, hty]
  case fifo => simp [processRecord, hty]
  case reg => simp [processRecord, hty]

theorem processRecords_directories (rs : List (Header × List Nat)) :
    ∀ st : RecvState, (processRecords st rs).2 = none →
      (processRecords st rs).1.directories
        = st.directories ++ rs.filterMap
            (fun r => if r.1.typeflag = TypeFlag.dir then some ⟨r.1.name, r.1.mtime⟩ else none) := by
  induction rs with
  | nil =>
    intro st _
    simp [processRecords]
  | cons r rest ih =>
    intro st h
    cases hp : (processRecord st r.1 r.2).2
    case some e =>
      rw [processRecords] at h
      simp only [hp] at h
      cases h
    case none =>
      rw [processRecords] at h ⊢
      simp only [hp] at h ⊢
      rw [ih (processRecord st r.1 r.2).1 h, processRecord_directories]
      by_cases hc : r.1.typeflag = TypeFlag.dir <;>
        simp [hc, List.filterMap_cons, List.append_assoc]

theorem processRecord_dir_no_chtimes (st : RecvState) (th : Header) (payload : List Nat)
    (h : th.typeflag = TypeFlag.dir) :
    (processRecord st th payload).1.fs.chtimesTrace = st.fs.chtimesTrace := by
  simp only [processRecord, h]
  cases hn : (st.fs.mkdirAll th.name.dropLast).node th.name <;>
    simp [hn, FS.chmod, FS.set, FS.mkdirAll, chtimesTrace_mkdirUpTo]

theorem chtimes_foldl_trace (l : List DirBlurb) :
    ∀ fs : FS, (l.foldl (fun fs d => fs.chtimes d.name d.modTime) fs).chtimesTrace
      = fs.chtimesTrace ++ l.map (fun d => (d.name, d.modTime)) := by
  induction l with
  | nil => intro fs; simp
  | cons d l ih =>
    intro fs
    simp only [List.foldl_cons, List.map_cons]
    rw [ih]
    simp [FS.chtimes]

/-- Claim C5: during extraction every directory record appends its
(path, mtime) pair to the deferred list in record-arrival order and performs
no `Chtimes` call of its own; after the stream ends, `applyDirTimes` walks
the recorded list in exact reverse order, applying each stored modification
time (so a parent's time is applied only after all its later-recorded
children). -/
theorem C5_deferred_dir_times (st st2 : RecvState) (rs : List (Header × List Nat))
    (th : Header) (payload : List Nat) (fs : FS) (ds : List DirBlurb)
    (h1 : (processRecords st rs).2 = none) (h2 : th.typeflag = TypeFlag.dir) :
    (processRecords st rs).1.directories
      = st.directories ++ rs.filterMap
          (fun r => if r.1.typeflag = TypeFlag.dir then some ⟨r.1.name, r.1.mtime⟩ else none) ∧
    (processRecord st2 th payload).1.directories
      = st2.directories ++ [⟨th.name, th.mtime⟩] ∧
    (processRecord st2 th payload).1.fs.chtimesTrace = st2.fs.chtimesTrace ∧
    (applyDirTimes fs ds).chtimesTrace
      = fs.chtimesTrace ++ ds.reverse.map (fun d => (d.name, d.modTime)) := by
  refine ⟨processRecords_directories rs st h1, ?_,
    processRecord_dir_no_chtimes st2 th payload h2, ?_⟩
  · rw [processRecord_directories, if_pos h2]
  · rw [applyDirTimes, chtimes_foldl_trace]

/-- Witness for C5 at a concrete one-record stream and a concrete two-entry
deferred list. -/
theorem C5_deferred_dir_times_witness :
    (processRecords ⟨FS.empty, []⟩ [(⟨["d"], TypeFlag.dir, 493, 0, 77, []⟩, [])]).1.directories
      = [] ++ ([(⟨["d"], TypeFlag.dir, 493, 0, 77, []⟩, [])] : List (Header × List Nat)).filterMap
          (fun r => if r.1.typeflag = TypeFlag.dir then some ⟨r.1.name, r.1.mtime⟩ else none) ∧
    (processRecord ⟨FS.empty, []⟩ ⟨["d"], TypeFlag.dir, 493, 0, 77, []⟩ []).1.directories
      = [] ++ ([⟨["d"], 77⟩] : List DirBlurb) ∧
    (processRecord ⟨FS.empty, []⟩ ⟨["d"], TypeFlag.dir, 493, 0, 77, []⟩ []).1.fs.chtimesTrace
      = FS.empty.chtimesTrace ∧
    (applyDirTimes FS.empty [⟨["d"], 7⟩, ⟨["d", "e"], 9⟩]).chtimesTrace
      = FS.empty.chtimesTrace
        ++ ([⟨["d"], 7⟩, ⟨["d", "e"], 9⟩] : List DirBlurb).reverse.map
            (fun d => (d.name, d.modTime)) :=
  C5_deferred_dir_times ⟨FS.empty, []⟩ ⟨FS.empty, []⟩
    [(⟨["d"], TypeFlag.dir, 493, 0, 77, []⟩, [])] ⟨["d"], TypeFlag.dir, 493, 0, 77, []⟩ []
    FS.empty [⟨["d"], 7⟩, ⟨["d", "e"], 9⟩] (by decide) rfl

theorem mkdirUpTo_preserve_long (p : Path) (fs : FS) (q : Path) :
    ∀ k : Nat, k ≤ p.length → k < q.length →
      (mkdirUpTo p k fs).node q = fs.node q := by
  intro k
  induction k with
  | zero => intro _ _; rfl
  | succ k ih =>
    intro hk hq
    have ihq := ih (by omega) (by omega)
    rw [mkdirUpTo]
    cases hn : (mkdirUpTo p k fs).node (p.take (k + 1))
    · simp only [FS.set]
      rw [if_neg ?_]
      · exact ihq
      · intro hc
        have : q.length = k + 1 := by
          rw [hc, List.length_take]
          omega
        omega
    · exact ihq

theorem mkdirUpTo_preserve_some (p : Path) (fs : FS) (q : Path) (nd : Node)
    (h : fs.node q = some nd) :
    ∀ k : Nat, (mkdirUpTo p k fs).node q = some nd := by
  intro k
  induction k with
  | zero => exact h
  | succ k ih =>
    rw [mkdirUpTo]
    cases hn : (mkdirUpTo p k fs).node (p.take (k + 1))
    · simp only [FS.set]
      rw [if_neg ?_]
      · exact ih
      · intro hc
        rw [hc] at ih
        rw [ih] at hn
        cases hn
    · exact ih

theorem mkdirUpTo_creates (p : Path) (fs : FS) (i : Nat)
    (hmiss : fs.node (p.take (i + 1)) = none) :
    ∀ k : Nat, i < k → k ≤ p.length →
      (mkdirUpTo p k fs).node (p.take (i + 1))
        = some { kind := NodeKind.dir, mode := 0o777, mtime := 0 } := by
  intro k
  induction k with
  | zero => omega
  | succ k ih =>
    intro hik hk
    rw [mkdirUpTo]
    by_cases hik' : i < k
    · have hres := ih hik' (by omega)
      cases hn : (mkdirUpTo p k fs).node (p.take (k + 1))
      · simp only [FS.set]
        rw [if_neg ?_]
        · exact hres
        · intro hc
          have h1 : (p.take (i + 1)).length = i + 1 := by
            rw [List.length_take]
            omega
          have h2 : (p.take (k + 1)).length = k + 1 := by
            rw [List.length_take]
            omega
          rw [hc, h2] at h1
          omega
      · exact hres
    · have hieq : i = k := by omega
      subst hieq
      have hpres : (mkdirUpTo p i fs).node (p.take (i + 1)) = fs.node (p.take (i + 1)) :=
        mkdirUpTo_preserve_long p fs (p.take (i + 1)) i (by omega)
          (by rw [List.length_take]; omega)
      rw [hpres, hmiss]
      simp [FS.set]

theorem processRecord_node_other (st : RecvState) (th : Header) (payload : List Nat)
    (p : Path) (h1 : p ≠ th.name) (h2 : p ≠ tempPath th.name) :
    (processRecord st th payload).1.fs.node p
      = (st.fs.mkdirAll th.name.dropLast).node p := by
  cases hty : th.typeflag
  case dir =>
    simp only [processRecord, hty]
    cases hn : (st.fs.mkdirAll th.name.dropLast).node th.name <;>
      simp [hn, FS.chmod, FS.set, h1]
  case link =>
    simp only [processRecord, hty]
    cases hn : (st.fs.mkdirAll th.name.dropLast).node th.linkname <;>
      simp [hn, FS.chtimes, FS.set, h1]
  case symlink =>
    simp [processRecord, hty, FS.set, h1]
  case fifo =>
    simp [processRecord, hty, FS.chtimes, FS.set, h1]
  case reg =>
    simp only [processRecord, hty]
    by_cases hsz : payload.length ≠ th.size <;>
      simp [makeRegular, hsz, FS.chtimes, FS.rename, FS.set, h1, h2]

/-- Claim C10: while processing any record, missing parent directories are
auto-created with mode `os.ModePerm` = 0o777, independent of the permissions
in the record's header; a directory's archived permission bits take effect
exactly when its own directory record is processed (chmod if present, mkdir
with the header mode if absent); and no other pre-existing path (other than
the record's own target and its temporary sibling) is altered. -/
theorem C10_parent_creation (st : RecvState) (th : Header) (payload : List Nat) (i : Nat) :
    (i < th.name.dropLast.length →
      st.fs.node (th.name.dropLast.take (i + 1)) = none →
      (processRecord st th payload).1.fs.node (th.name.dropLast.take (i + 1))
        = some { kind := NodeKind.dir, mode := 0o777, mtime := 0 }) ∧
    (th.typeflag = TypeFlag.dir →
      ((processRecord st th payload).1.fs.node th.name).map Node.mode = some th.mode) ∧
    (∀ p nd, p ≠ th.name → p ≠ tempPath th.name → st.fs.node p = some nd →
      (processRecord st th payload).1.fs.node p = some nd) := by
  refine ⟨?_, ?_, ?_⟩
  · intro hi hmiss
    have hq1 : (th.name.dropLast.take (i + 1)).length = i + 1 := by
      rw [List.length_take]
      omega
    have hlenn : th.name.dropLast.length < th.name.length := by
      rcases th.name.eq_nil_or_concat with hnil | ⟨q, a, hcat⟩
      · rw [hnil] at hi
        simp at hi
      · rw [hcat, List.concat_eq_append]
        simp
    have hne1 : th.name.dropLast.take (i + 1) ≠ th.name := by
      intro hc
      have := hq1
      rw [hc] at this
      omega
    have hne2 : th.name.dropLast.take (i + 1) ≠ tempPath th.name := by
      intro hc
      have := hq1
      rw [hc, tempPath_length] at this
      omega
    rw [processRecord_node_other st th payload _ hne1 hne2]
    exact mkdirUpTo_creates th.name.dropLast st.fs i hmiss th.name.dropLast.length hi le_rfl
  · intro hty
    simp only [processRecord, hty]
    cases hn : (st.fs.mkdirAll th.name.dropLast).node th.name <;>
      simp [hn, FS.chmod, FS.set]
  · intro p nd hp1 hp2 hsome
    rw [processRecord_node_other st th payload p hp1 hp2]
    exact mkdirUpTo_preserve_some th.name.dropLast st.fs p nd hsome th.name.dropLast.length

/-- Witness for C10: a regular-file record two levels deep auto-creates its
missing parent with mode 0o777, and a pre-existing unrelated entry survives. -/
theorem C10_parent_creation_witness :
    (processRecord ⟨FS.empty, []⟩ ⟨["d", "f"], TypeFlag.reg, 384, 0, 5, []⟩ []).1.fs.node
        ((["d", "f"] : Path).dropLast.take 1)
      = some { kind := NodeKind.dir, mode := 0o777, mtime := 0 } :=
  (C10_parent_creation ⟨FS.empty, []⟩ ⟨["d", "f"], TypeFlag.reg, 384, 0, 5, []⟩ [] 0).1
    (by decide) rfl

end TarPipe
